import Mathlib

/-!
Shallow embedding of the core of `gotestwatch` (src/main.go): the package
snapshot data model, the reverse-dependency index builder (`buildRevdeps`),
the change-to-targets resolver (`testsToRun` / `runAllTests`), and the
debounce collector (`debounceFor`), together with theorems settling the
specification claims about them.

Modelling conventions:
- Go strings are Lean `String`s; `strings.HasPrefix(s, p)` is
  `p.data.isPrefixOf s.data` (byte-lexicographic prefix agrees with
  character-list prefix on UTF-8 text).
- The Go map `map[string]*Package` keyed by directory is a `List Package`
  looked up by the `Dir` field; `go list` keys packages by distinct
  directories, so entries are pairwise distinct records.  Pointer equality
  of `*Package` values originating from that map coincides with record
  equality, since distinct entries differ at least in `Dir`.
- A Go map built by appending under keys (`revdeps`, `byDir`) is modelled
  by its contents: a function `String → List Package`, resp. the list of
  (key, grouped values) pairs.  Go map iteration order is unspecified; the
  embedding fixes a deterministic order and the order-insensitivity of the
  final result is itself one of the verified claims.
-/

/-- Embedding of the `Package` struct of src/main.go (the nested
`Module struct { Path string }` is flattened into the single field it
carries, `ModulePath`). -/
structure Package where
  Dir : String
  ImportPath : String
  Deps : List String
  GoFiles : List String
  IgnoredGoFiles : List String
  TestGoFiles : List String
  XTestGoFiles : List String
  EmbedFiles : List String
  TestImports : List String
  XTestImports : List String
  ModulePath : String
deriving DecidableEq, Repr

/-- The file-name component of `filepath.Split(path)`: everything after the
final slash (the whole path when it has no slash). -/
def fileNameOf (path : String) : String :=
  String.mk ((path.data.reverse.takeWhile (fun c => c != '/')).reverse)

/-- The directory component produced by the dispatch loop of src/main.go:
`dir, _ := filepath.Split(path)` followed by `strings.TrimSuffix(dir, "/")`.
`filepath.Split` keeps the final slash in `dir`; the trim removes it. -/
def dirOf (path : String) : String :=
  let raw := String.mk (path.data.take (path.data.length - (path.data.reverse.takeWhile (fun c => c != '/')).length))
  if raw.data.getLast? = some '/' then String.mk raw.data.dropLast else raw

/-- Lookup in the snapshot map `pkgs map[string]*Package` (keyed by `Dir`). -/
def lookupDir (pkgs : List Package) (dir : String) : Option Package :=
  pkgs.find? (fun p => decide (p.Dir = dir))

/-- `revdeps[d] = append(revdeps[d], p)`: pointwise append under one key of
the reverse-dependency map. -/
def addRevdep (m : String → List Package) (d : String) (p : Package) : String → List Package :=
  fun k => if k = d then m k ++ [p] else m k

/-- First pass of `buildRevdeps` for one package: record `p` under every
production dependency that lies inside `p`'s module. -/
def addProdDeps (p : Package) (deps : List String) (m : String → List Package) : String → List Package :=
  deps.foldl (fun m d => if p.ModulePath.data.isPrefixOf d.data then addRevdep m d p else m) m

/-- Second pass of `buildRevdeps` for one package: record `p` under every
test or external-test import inside `p`'s module, skipping entries where
`p` is already recorded (`!slices.Contains(revdeps[imp], pkg)`). -/
def addTestImps (p : Package) (imps : List String) (m : String → List Package) : String → List Package :=
  imps.foldl (fun m d => if p.ModulePath.data.isPrefixOf d.data ∧ p ∉ m d then addRevdep m d p else m) m

/-- Both passes of `buildRevdeps` for one package: production dependencies
first, then `append(pkg.TestImports, pkg.XTestImports...)`. -/
def stepPkg (m : String → List Package) (p : Package) : String → List Package :=
  addTestImps p (p.TestImports ++ p.XTestImports) (addProdDeps p p.Deps m)

/-- Embedding of `buildRevdeps` (src/main.go lines 351-368): the reverse
dependency map from import path to the packages depending on it, built by
iterating over the snapshot.  (Go iterates the `pkgs` map in unspecified
order; the embedding folds over the snapshot list.  All claims proved about
the index are order-insensitive membership and duplicate-freeness facts.) -/
def buildRevdeps (pkgs : List Package) : String → List Package :=
  pkgs.foldl stepPkg (fun _ => [])

/-- Embedding of `testsToRun` (src/main.go lines 371-391): the affected set
of test packages for the group of changed file names `filenames` inside
package `pkg`, given that package's reverse dependents `revdeps`. -/
def testsToRun (pkg : Package) (revdeps : List Package) (filenames : List String) : List Package :=
  if revdeps.isEmpty then []
  else if (filenames.filter (fun f => decide (f ∉ pkg.IgnoredGoFiles))).isEmpty then []
  else if (filenames.filter (fun f => decide (f ∉ pkg.IgnoredGoFiles))).all
    (fun f => decide (f ∈ pkg.TestGoFiles ∨ f ∈ pkg.XTestGoFiles)) then [pkg]
  else revdeps ++ [pkg]

/-- The file names of the changed paths of `fns` whose directory is `d`
(the group stored under key `d` in the `byDir` map, in arrival order). -/
def groupOf (fns : List String) (d : String) : List String :=
  (fns.filter (fun f => decide (dirOf f = d))).map fileNameOf

/-- The contents of the `byDir` map of `runAllTests` (src/main.go lines
395-400): one entry per distinct changed directory, carrying the file names
of that directory's changed paths in arrival order.  (Go iterates this map
in unspecified order; the entry order chosen here is irrelevant to the
canonicalized result, which is proved below.) -/
def groupByDir (fns : List String) : List (String × List String) :=
  ((fns.map dirOf).dedup).map (fun d => (d, groupOf fns d))

/-- The contribution of one `byDir` entry to `toRun` in `runAllTests`:
unknown directories are skipped (`continue`), known ones contribute
`testsToRun(pkg, revdeps[pkg.ImportPath], files)`. -/
def contrib (pkgs : List Package) (revdeps : String → List Package) (df : String × List String) : List Package :=
  match lookupDir pkgs df.1 with
  | none => []
  | some pkg => testsToRun pkg (revdeps pkg.ImportPath) df.2

/-- Lexicographic comparison of character lists by character code, the
order `slices.Sort` uses on Go strings (byte-lexicographic order, which on
UTF-8 encoded text coincides with code-point-lexicographic order). -/
def lexLe : List Char → List Char → Bool
  | [], _ => true
  | _ :: _, [] => false
  | a :: as, b :: bs =>
    if a.toNat < b.toNat then true
    else if b.toNat < a.toNat then false
    else lexLe as bs

/-- The string order used by `slices.Sort` in `runAllTests`. -/
def goLe (a b : String) : Prop :=
  lexLe a.data b.data = true

instance : DecidableRel goLe :=
  fun a b => inferInstanceAs (Decidable (lexLe a.data b.data = true))

/-- `slices.Sort` on the import-path list: any correct sort of strings under
the (antisymmetric, total) lexicographic order produces the same list, so
insertion sort is an exact model of the Go sort's output. -/
def sortStrings (l : List String) : List String :=
  l.insertionSort goLe

/-- Tail worker of `compactAdj`: drop elements equal to the previous kept
element, keeping the first element of each run of equal values. -/
def compactAdjAux {α : Type} [DecidableEq α] (prev : α) : List α → List α
  | [] => []
  | b :: rest => if prev = b then compactAdjAux prev rest else b :: compactAdjAux b rest

/-- Embedding of `slices.Compact`: collapse runs of adjacent equal
elements to a single element (keeping the first of each run). -/
def compactAdj {α : Type} [DecidableEq α] : List α → List α
  | [] => []
  | a :: rest => a :: compactAdjAux a rest

/-- Embedding of the resolution part of `runAllTests` (src/main.go lines
394-419): group the changed paths by directory, resolve each known
directory through `testsToRun`, drop packages with no test files, project
to import paths, sort and deduplicate.  The returned list is exactly the
argument list handed to the test executor. -/
def runAllTestsPaths (pkgs : List Package) (revdeps : String → List Package) (fns : List String) : List String :=
  compactAdj (sortStrings

    ((((groupByDir fns).foldl (fun acc df => acc ++ contrib pkgs revdeps df) []).filter
      (fun p => decide (¬ (p.TestGoFiles = [] ∧ p.XTestGoFiles = [])))).map Package.ImportPath))

/-- The observable outcome of one `runAllTests` invocation: either the
"No affected tests to run" branch (src/main.go lines 420-422, a normal
return with a nil error and no executor invocation), or an invocation of
the test executor with the given argument list (whose pass or fail result
comes from the external `go test` process). -/
inductive Outcome where
  | noTests
  | run (paths : List String)
deriving DecidableEq, Repr

/-- The outcome of `runAllTests` on a batch: `noTests` exactly when the
resolved path list is empty, otherwise an executor run on that list. -/
def runAllTestsOutcome (pkgs : List Package) (revdeps : String → List Package) (fns : List String) : Outcome :=
  if (runAllTestsPaths pkgs revdeps fns).isEmpty then Outcome.noTests
  else Outcome.run (runAllTestsPaths pkgs revdeps fns)

/-- Embedding of `debounceFor` (src/main.go lines 297-308).  The Go code
creates one deadline timer, `time.After(duration)`, when the function is
entered, and loops selecting between the event channel and that single
timer; the timer is never reset.  The embedding represents the channel as
the time-ordered list of pending arrivals, each tagged with its arrival
time measured from the moment collection starts: an arrival strictly
before the deadline is received and accumulated, and the first arrival at
or after the deadline makes the timer case fire first, returning the
accumulated batch and leaving the remaining events in the channel. -/
def debounceFor {α : Type} : List (Nat × α) → Nat → List α
  | [], _ => []
  | (t, a) :: rest, duration =>
    if t < duration then a :: debounceFor rest duration else []

/-- A module with a single leaf package that has production files and
tests but no dependents and no test imports: the smallest realistic
snapshot (`go list` output of a one-package module). -/
def leafPkg : Package :=
  { Dir := "/m/a", ImportPath := "m/a", Deps := [], GoFiles := ["a.go"],
    IgnoredGoFiles := [], TestGoFiles := ["a_test.go"], XTestGoFiles := [],
    EmbedFiles := [], TestImports := [], XTestImports := [], ModulePath := "m" }

/-- A package whose external test file imports the package under test, as
`go list` reports for any package with an external (`_test` suffix
package) test: its `XTestImports` contains its own import path. -/
def selfPkg : Package :=
  { Dir := "/m/a", ImportPath := "m/a", Deps := [], GoFiles := ["a.go"],
    IgnoredGoFiles := [], TestGoFiles := [], XTestGoFiles := ["a_ext_test.go"],
    EmbedFiles := [], TestImports := [], XTestImports := ["m/a"], ModulePath := "m" }

/-- Example snapshot package: a tested leaf package with one build-excluded
file. -/
def corePkg : Package :=
  { Dir := "/m/core", ImportPath := "m/core", Deps := [], GoFiles := ["core.go"],
    IgnoredGoFiles := ["ign.go"], TestGoFiles := ["core_test.go"], XTestGoFiles := [],
    EmbedFiles := [], TestImports := [], XTestImports := [], ModulePath := "m" }

/-- Example snapshot package: a tested package depending on `m/core`. -/
def apiPkg : Package :=
  { Dir := "/m/api", ImportPath := "m/api", Deps := ["m/core"], GoFiles := ["api.go"],
    IgnoredGoFiles := [], TestGoFiles := ["api_test.go"], XTestGoFiles := [],
    EmbedFiles := [], TestImports := [], XTestImports := [], ModulePath := "m" }

/-- Example snapshot package: an untested command depending on both other
packages. -/
def cmdPkg : Package :=
  { Dir := "/m/cmd", ImportPath := "m/cmd", Deps := ["m/api", "m/core"], GoFiles := ["main.go"],
    IgnoredGoFiles := [], TestGoFiles := [], XTestGoFiles := [],
    EmbedFiles := [], TestImports := [], XTestImports := [], ModulePath := "m" }

/-- The three-package example snapshot of the specification's scenario
section: core (tested), api (tested, depends on core), cmd (untested,
depends on both). -/
def snapEx : List Package := [corePkg, apiPkg, cmdPkg]

/-! ### Order properties of the string comparison -/

theorem charToNat_inj {a b : Char} (h : a.toNat = b.toNat) : a = b :=
  Char.ext (UInt32.ext h)

theorem lexLe_total (a b : List Char) : lexLe a b = true ∨ lexLe b a = true := by
  induction a generalizing b with
  | nil => left; rfl
  | cons x xs ih =>
    cases b with
    | nil => right; rfl
    | cons y ys =>
      rcases Nat.lt_trichotomy x.toNat y.toNat with h | h | h
      · left; simp [lexLe, h]
      · have h1 : ¬ x.toNat < y.toNat := by omega
        have h2 : ¬ y.toNat < x.toNat := by omega
        simpa [lexLe, h1, h2] using ih ys
      · right; simp [lexLe, h]

theorem lexLe_trans {a b c : List Char} (hab : lexLe a b = true) (hbc : lexLe b c = true) :
    lexLe a c = true := by
  induction a generalizing b c with
  | nil => rfl
  | cons x xs ih =>
    cases b with
    | nil => simp [lexLe] at hab
    | cons y ys =>
      cases c with
      | nil => simp [lexLe] at hbc
      | cons z zs =>
        by_cases hxy : x.toNat < y.toNat
        · by_cases hyz : y.toNat < z.toNat
          · have : x.toNat < z.toNat := by omega
            simp [lexLe, this]
          · by_cases hzy : z.toNat < y.toNat
            · simp [lexLe, hyz, hzy] at hbc
            · have : x.toNat < z.toNat := by omega
              simp [lexLe, this]
        · by_cases hyx : y.toNat < x.toNat
          · simp [lexLe, hxy, hyx] at hab
          · have hxyeq : x.toNat = y.toNat := by omega
            rw [lexLe, if_neg hxy, if_neg hyx] at hab
            by_cases hyz : y.toNat < z.toNat
            · have : x.toNat < z.toNat := by omega
              simp [lexLe, this]
            · by_cases hzy : z.toNat < y.toNat
              · simp [lexLe, hyz, hzy] at hbc
              · have h1 : ¬ x.toNat < z.toNat := by omega
                have h2 : ¬ z.toNat < x.toNat := by omega
                rw [lexLe, if_neg hyz, if_neg hzy] at hbc
                rw [lexLe, if_neg h1, if_neg h2]
                exact ih hab hbc

theorem lexLe_antisymm {a b : List Char} (hab : lexLe a b = true) (hba : lexLe b a = true) :
    a = b := by
  induction a generalizing b with
  | nil =>
    cases b with
    | nil => rfl
    | cons y ys => simp [lexLe] at hba
  | cons x xs ih =>
    cases b with
    | nil => simp [lexLe] at hab
    | cons y ys =>
      by_cases hxy : x.toNat < y.toNat
      · have : ¬ y.toNat < x.toNat := by omega
        simp [lexLe, hxy, this] at hba
      · by_cases hyx : y.toNat < x.toNat
        · simp [lexLe, hxy, hyx] at hab
        · have hxyeq : x = y := charToNat_inj (by omega)
          rw [lexLe, if_neg hxy, if_neg hyx] at hab
          rw [lexLe, if_neg hyx, if_neg hxy] at hba
          rw [hxyeq, ih hab hba]

theorem goLe_total (a b : String) : goLe a b ∨ goLe b a :=
  lexLe_total a.data b.data

theorem goLe_trans {a b c : String} (hab : goLe a b) (hbc : goLe b c) : goLe a c :=
  lexLe_trans hab hbc

theorem goLe_antisymm {a b : String} (hab : goLe a b) (hba : goLe b a) : a = b :=
  String.ext (lexLe_antisymm hab hba)

/-! ### Properties of sorting and adjacent deduplication -/

theorem mem_sortStrings {l : List String} {x : String} : x ∈ sortStrings l ↔ x ∈ l :=
  (List.perm_insertionSort goLe l).mem_iff

theorem sorted_sortStrings (l : List String) : (sortStrings l).Sorted goLe := by
  haveI : IsTotal String goLe := ⟨goLe_total⟩
  haveI : IsTrans String goLe := ⟨fun _ _ _ => goLe_trans⟩
  exact List.sorted_insertionSort goLe l

theorem compactAdjAux_subset {α : Type} [DecidableEq α] {prev : α} {l : List α} {x : α}
    (h : x ∈ compactAdjAux prev l) : x ∈ l := by
  induction l generalizing prev with
  | nil => simp [compactAdjAux] at h
  | cons b rest ih =>
    rw [compactAdjAux] at h
    by_cases hpb : prev = b
    · rw [if_pos hpb] at h
      exact List.mem_cons_of_mem b (ih h)
    · rw [if_neg hpb] at h
      rcases List.mem_cons.mp h with h | h
      · exact h ▸ List.mem_cons_self b rest
      · exact List.mem_cons_of_mem b (ih h)

theorem mem_compactAdjAux {α : Type} [DecidableEq α] {prev : α} {l : List α} {x : α}
    (h : x ∈ l) : x = prev ∨ x ∈ compactAdjAux prev l := by
  induction l generalizing prev with
  | nil => simp at h
  | cons b rest ih =>
    rw [compactAdjAux]
    by_cases hpb : prev = b
    · rw [if_pos hpb]
      rcases List.mem_cons.mp h with h | h
      · left; rw [h, hpb]
      · exact ih h
    · rw [if_neg hpb]
      rcases List.mem_cons.mp h with h | h
      · right; rw [h]; exact List.mem_cons_self b _
      · rcases ih h with h | h
        · right; rw [h]; exact List.mem_cons_self b _
        · right; exact List.mem_cons_of_mem b h

theorem mem_compactAdj {α : Type} [DecidableEq α] {l : List α} {x : α} :
    x ∈ compactAdj l ↔ x ∈ l := by
  cases l with
  | nil => simp [compactAdj]
  | cons a rest =>
    rw [compactAdj]
    constructor
    · intro h
      rcases List.mem_cons.mp h with h | h
      · exact h ▸ List.mem_cons_self a rest
      · exact List.mem_cons_of_mem a (compactAdjAux_subset h)
    · intro h
      rcases List.mem_cons.mp h with h | h
      · exact h ▸ List.mem_cons_self a _
      · rcases mem_compactAdjAux h with h | h
        · exact h ▸ List.mem_cons_self a _
        · exact List.mem_cons_of_mem a h

theorem compactAdjAux_canonical {α : Type} [DecidableEq α] {r : α → α → Prop}
    (hanti : ∀ {a b : α}, r a b → r b a → a = b)
    {a : α} {l : List α} (h : (a :: l).Sorted r) :
    (compactAdjAux a l).Sorted r ∧ a ∉ compactAdjAux a l ∧
      (compactAdjAux a l).Nodup ∧ ∀ x ∈ compactAdjAux a l, r a x := by
  induction l generalizing a with
  | nil => simp [compactAdjAux]
  | cons b rest ih =>
    rw [List.sorted_cons] at h
    obtain ⟨hab, hrest⟩ := h
    have hrab : r a b := hab b (List.mem_cons_self b rest)
    rw [compactAdjAux]
    by_cases heq : a = b
    · rw [if_pos heq]
      subst heq
      have hsort : (a :: rest).Sorted r := by
        rw [List.sorted_cons]
        exact ⟨fun x hx => hab x (List.mem_cons_of_mem a hx), (List.sorted_cons.mp hrest).2⟩
      exact ih hsort
    · rw [if_neg heq]
      obtain ⟨hs, hbn, hnd, hbx⟩ := ih hrest
      refine ⟨?_, ?_, ?_, ?_⟩
      · rw [List.sorted_cons]
        exact ⟨hbx, hs⟩
      · intro hmem
        rcases List.mem_cons.mp hmem with hmem | hmem
        · exact heq hmem
        · exact heq (hanti hrab (hbx a hmem))
      · rw [List.nodup_cons]
        exact ⟨hbn, hnd⟩
      · intro x hx
        rcases List.mem_cons.mp hx with hx | hx
        · exact hx ▸ hrab
        · exact hab x (List.mem_cons_of_mem b (compactAdjAux_subset hx))

theorem compactAdj_canonical {α : Type} [DecidableEq α] {r : α → α → Prop}
    (hanti : ∀ {a b : α}, r a b → r b a → a = b)
    {l : List α} (h : l.Sorted r) :
    (compactAdj l).Sorted r ∧ (compactAdj l).Nodup := by
  cases l with
  | nil => simp [compactAdj]
  | cons a rest =>
    obtain ⟨hs, han, hnd, hax⟩ :=
      compactAdjAux_canonical (r := r) (fun {a b} => hanti) h
    rw [compactAdj]
    constructor
    · rw [List.sorted_cons]
      exact ⟨hax, hs⟩
    · rw [List.nodup_cons]
      exact ⟨han, hnd⟩

/-- The sort-then-compact canonicalization at the end of `runAllTests`
produces a list determined by the membership of its input: the executor
argument list does not depend on the order or multiplicity in which
the import paths were accumulated. -/
theorem canonicalize_eq {l₁ l₂ : List String} (h : ∀ x, x ∈ l₁ ↔ x ∈ l₂) :
    compactAdj (sortStrings l₁) = compactAdj (sortStrings l₂) := by
  have c₁ := compactAdj_canonical (r := goLe) (fun {a b} => goLe_antisymm)
    (sorted_sortStrings l₁)
  have c₂ := compactAdj_canonical (r := goLe) (fun {a b} => goLe_antisymm)
    (sorted_sortStrings l₂)
  haveI : IsAntisymm String goLe := ⟨fun _ _ => goLe_antisymm⟩
  refine List.eq_of_perm_of_sorted ?_ c₁.1 c₂.1
  refine (List.perm_ext_iff_of_nodup c₁.2 c₂.2).mpr ?_
  intro a
  rw [mem_compactAdj, mem_compactAdj, mem_sortStrings, mem_sortStrings]
  exact h a

/-! ### Membership characterization of the reverse dependency index -/

theorem mem_addRevdep {m : String → List Package} {d k : String} {p Q : Package} :
    Q ∈ addRevdep m d p k ↔ Q ∈ m k ∨ (k = d ∧ Q = p) := by
  unfold addRevdep
  by_cases h : k = d
  · rw [if_pos h]; simp [h]
  · rw [if_neg h]; simp [h]

theorem mem_addProdDeps {p : Package} {deps : List String} {m : String → List Package}
    {k : String} {Q : Package} :
    Q ∈ addProdDeps p deps m k ↔
      Q ∈ m k ∨ (Q = p ∧ k ∈ deps ∧ p.ModulePath.data.isPrefixOf k.data = true) := by
  induction deps generalizing m with
  | nil => simp [addProdDeps]
  | cons d ds ih =>
    show Q ∈ addProdDeps p ds (if p.ModulePath.data.isPrefixOf d.data then addRevdep m d p else m) k ↔ _
    rw [ih]
    by_cases hpre : p.ModulePath.data.isPrefixOf d.data = true
    · rw [if_pos hpre]
      constructor
      · rintro (hm | ⟨rfl, hds, hk⟩)
        · rcases mem_addRevdep.mp hm with hm | ⟨rfl, rfl⟩
          · exact Or.inl hm
          · exact Or.inr ⟨rfl, List.mem_cons_self k ds, hpre⟩
        · exact Or.inr ⟨rfl, List.mem_cons_of_mem d hds, hk⟩
      · rintro (hm | ⟨rfl, hmem, hk⟩)
        · exact Or.inl (mem_addRevdep.mpr (Or.inl hm))
        · rcases List.mem_cons.mp hmem with rfl | hmem
          · exact Or.inl (mem_addRevdep.mpr (Or.inr ⟨rfl, rfl⟩))
          · exact Or.inr ⟨rfl, hmem, hk⟩
    · rw [if_neg hpre]
      constructor
      · rintro (hm | ⟨rfl, hds, hk⟩)
        · exact Or.inl hm
        · exact Or.inr ⟨rfl, List.mem_cons_of_mem d hds, hk⟩
      · rintro (hm | ⟨rfl, hmem, hk⟩)
        · exact Or.inl hm
        · rcases List.mem_cons.mp hmem with rfl | hmem
          · exact absurd hk hpre
          · exact Or.inr ⟨rfl, hmem, hk⟩

theorem mem_stepTestImp {p : Package} {i k : String} {m : String → List Package} {Q : Package} :
    Q ∈ (if p.ModulePath.data.isPrefixOf i.data ∧ p ∉ m i then addRevdep m i p else m) k ↔
      Q ∈ m k ∨ (Q = p ∧ k = i ∧ p.ModulePath.data.isPrefixOf i.data = true) := by
  by_cases hc : p.ModulePath.data.isPrefixOf i.data ∧ p ∉ m i
  · rw [if_pos hc]
    rw [mem_addRevdep]
    constructor
    · rintro (hm | ⟨rfl, rfl⟩)
      · exact Or.inl hm
      · exact Or.inr ⟨rfl, rfl, hc.1⟩
    · rintro (hm | ⟨rfl, rfl, hk⟩)
      · exact Or.inl hm
      · exact Or.inr ⟨rfl, rfl⟩
  · rw [if_neg hc]
    constructor
    · exact Or.inl
    · rintro (hm | ⟨rfl, rfl, hk⟩)
      · exact hm
      · rcases not_and_or.mp hc with hc | hc
        · exact absurd hk hc
        · exact not_not.mp hc

theorem mem_addTestImps {p : Package} {imps : List String} {m : String → List Package}
    {k : String} {Q : Package} :
    Q ∈ addTestImps p imps m k ↔
      Q ∈ m k ∨ (Q = p ∧ k ∈ imps ∧ p.ModulePath.data.isPrefixOf k.data = true) := by
  induction imps generalizing m with
  | nil => simp [addTestImps]
  | cons i is ih =>
    show Q ∈ addTestImps p is (if p.ModulePath.data.isPrefixOf i.data ∧ p ∉ m i then addRevdep m i p else m) k ↔ _
    rw [ih]
    rw [mem_stepTestImp]
    constructor
    · rintro ((hm | ⟨rfl, rfl, hk⟩) | ⟨rfl, his, hk⟩)
      · exact Or.inl hm
      · exact Or.inr ⟨rfl, List.mem_cons_self k is, hk⟩
      · exact Or.inr ⟨rfl, List.mem_cons_of_mem i his, hk⟩
    · rintro (hm | ⟨rfl, hmem, hk⟩)
      · exact Or.inl (Or.inl hm)
      · rcases List.mem_cons.mp hmem with rfl | hmem
        · exact Or.inl (Or.inr ⟨rfl, rfl, hk⟩)
        · exact Or.inr ⟨rfl, hmem, hk⟩

theorem mem_stepPkg {m : String → List Package} {p : Package} {k : String} {Q : Package} :
    Q ∈ stepPkg m p k ↔
      Q ∈ m k ∨ (Q = p ∧ p.ModulePath.data.isPrefixOf k.data = true ∧
        (k ∈ p.Deps ∨ k ∈ p.TestImports ++ p.XTestImports)) := by
  unfold stepPkg
  rw [mem_addTestImps, mem_addProdDeps]
  tauto

theorem mem_foldl_stepPkg {l : List Package} {m : String → List Package} {k : String} {Q : Package} :
    Q ∈ (l.foldl stepPkg m) k ↔
      Q ∈ m k ∨ (Q ∈ l ∧ Q.ModulePath.data.isPrefixOf k.data = true ∧
        (k ∈ Q.Deps ∨ k ∈ Q.TestImports ++ Q.XTestImports)) := by
  induction l generalizing m with
  | nil => simp
  | cons p ps ih =>
    show Q ∈ (ps.foldl stepPkg (stepPkg m p)) k ↔ _
    rw [ih, mem_stepPkg]
    constructor
    · rintro ((hm | ⟨rfl, hpre, hdep⟩) | ⟨hmem, hpre, hdep⟩)
      · exact Or.inl hm
      · exact Or.inr ⟨List.mem_cons_self Q ps, hpre, hdep⟩
      · exact Or.inr ⟨List.mem_cons_of_mem p hmem, hpre, hdep⟩
    · rintro (hm | ⟨hmem, hpre, hdep⟩)
      · exact Or.inl (Or.inl hm)
      · rcases List.mem_cons.mp hmem with rfl | hmem
        · exact Or.inl (Or.inr ⟨rfl, hpre, hdep⟩)
        · exact Or.inr ⟨hmem, hpre, hdep⟩

/-- Membership in the reverse dependency index: `Q` is recorded under `D`
exactly when `Q` is a snapshot package, `D` carries `Q`'s module path as a
prefix, and `D` is among `Q`'s production dependencies or its test or
external-test imports. -/
theorem mem_buildRevdeps {pkgs : List Package} {k : String} {Q : Package} :
    Q ∈ buildRevdeps pkgs k ↔
      Q ∈ pkgs ∧ Q.ModulePath.data.isPrefixOf k.data = true ∧
        (k ∈ Q.Deps ∨ k ∈ Q.TestImports ++ Q.XTestImports) := by
  unfold buildRevdeps
  rw [mem_foldl_stepPkg]
  simp

/-! ### Duplicate-freeness of the reverse dependency index -/

theorem addProdDeps_eq {p : Package} {deps : List String} {m : String → List Package}
    {k : String} (hnd : deps.Nodup) :
    addProdDeps p deps m k =
      m k ++ (if k ∈ deps ∧ p.ModulePath.data.isPrefixOf k.data = true then [p] else []) := by
  induction deps generalizing m with
  | nil => simp [addProdDeps]
  | cons d ds ih =>
    rw [List.nodup_cons] at hnd
    obtain ⟨hd, hds⟩ := hnd
    show addProdDeps p ds (if p.ModulePath.data.isPrefixOf d.data then addRevdep m d p else m) k = _
    rw [ih hds]
    by_cases hk : k = d
    · subst hk
      by_cases hpre : p.ModulePath.data.isPrefixOf k.data = true
      · rw [if_pos hpre]
        have h1 : ¬ (k ∈ ds ∧ p.ModulePath.data.isPrefixOf k.data = true) := fun h => hd h.1
        have h2 : k ∈ k :: ds ∧ p.ModulePath.data.isPrefixOf k.data = true :=
          ⟨List.mem_cons_self k ds, hpre⟩
        rw [if_neg h1, if_pos h2]
        unfold addRevdep
        rw [if_pos rfl]
        simp
      · rw [if_neg hpre]
        have h1 : ¬ (k ∈ ds ∧ p.ModulePath.data.isPrefixOf k.data = true) := fun h => hpre h.2
        have h2 : ¬ (k ∈ k :: ds ∧ p.ModulePath.data.isPrefixOf k.data = true) := fun h => hpre h.2
        rw [if_neg h1, if_neg h2]
    · have hmk : ∀ b : List Package,
          (if p.ModulePath.data.isPrefixOf d.data then addRevdep m d p else m) k = m k := by
        intro _
        by_cases hpre : p.ModulePath.data.isPrefixOf d.data = true
        · rw [if_pos hpre]
          unfold addRevdep
          rw [if_neg hk]
        · rw [if_neg hpre]
      rw [hmk []]
      have : (k ∈ d :: ds ∧ p.ModulePath.data.isPrefixOf k.data = true) ↔
          (k ∈ ds ∧ p.ModulePath.data.isPrefixOf k.data = true) := by
        constructor
        · rintro ⟨hmem, hp⟩
          rcases List.mem_cons.mp hmem with h | h
          · exact absurd h hk
          · exact ⟨h, hp⟩
        · rintro ⟨hmem, hp⟩
          exact ⟨List.mem_cons_of_mem d hmem, hp⟩
      rw [if_congr this rfl rfl]

theorem addTestImps_eq {p : Package} {imps : List String} {m : String → List Package}
    {k : String} :
    addTestImps p imps m k =
      m k ++ (if (k ∈ imps ∧ p.ModulePath.data.isPrefixOf k.data = true) ∧ p ∉ m k
        then [p] else []) := by
  induction imps generalizing m with
  | nil => simp [addTestImps]
  | cons i is ih =>
    show addTestImps p is (if p.ModulePath.data.isPrefixOf i.data ∧ p ∉ m i then addRevdep m i p else m) k = _
    rw [ih]
    by_cases hk : k = i
    · subst hk
      by_cases hpre : p.ModulePath.data.isPrefixOf k.data = true
      · by_cases hmem : p ∈ m k
        · have hguard : ¬ (p.ModulePath.data.isPrefixOf k.data ∧ p ∉ m k) := fun h => h.2 hmem
          rw [if_neg hguard]
          have h1 : ¬ ((k ∈ is ∧ p.ModulePath.data.isPrefixOf k.data = true) ∧ p ∉ m k) :=
            fun h => h.2 hmem
          have h2 : ¬ ((k ∈ k :: is ∧ p.ModulePath.data.isPrefixOf k.data = true) ∧ p ∉ m k) :=
            fun h => h.2 hmem
          rw [if_neg h1, if_neg h2]
        · have hguard : p.ModulePath.data.isPrefixOf k.data ∧ p ∉ m k := ⟨hpre, hmem⟩
          rw [if_pos hguard]
          have hmk : addRevdep m k p k = m k ++ [p] := by
            unfold addRevdep
            rw [if_pos rfl]
          rw [hmk]
          have h1 : ¬ ((k ∈ is ∧ p.ModulePath.data.isPrefixOf k.data = true) ∧ p ∉ m k ++ [p]) := by
            rintro ⟨-, hnp⟩
            exact hnp (List.mem_append_right _ (List.mem_singleton_self p))
          have h2 : (k ∈ k :: is ∧ p.ModulePath.data.isPrefixOf k.data = true) ∧ p ∉ m k :=
            ⟨⟨List.mem_cons_self k is, hpre⟩, hmem⟩
          rw [if_neg h1, if_pos h2]
          simp
      · have hguard : ¬ (p.ModulePath.data.isPrefixOf k.data ∧ p ∉ m k) := fun h => hpre h.1
        rw [if_neg hguard]
        have h1 : ¬ ((k ∈ is ∧ p.ModulePath.data.isPrefixOf k.data = true) ∧ p ∉ m k) :=
          fun h => hpre h.1.2
        have h2 : ¬ ((k ∈ k :: is ∧ p.ModulePath.data.isPrefixOf k.data = true) ∧ p ∉ m k) :=
          fun h => hpre h.1.2
        rw [if_neg h1, if_neg h2]
    · have hmk : (if p.ModulePath.data.isPrefixOf i.data ∧ p ∉ m i then addRevdep m i p else m) k = m k := by
        by_cases hguard : p.ModulePath.data.isPrefixOf i.data ∧ p ∉ m i
        · rw [if_pos hguard]
          unfold addRevdep
          rw [if_neg hk]
        · rw [if_neg hguard]
      rw [hmk]
      have : ((k ∈ i :: is ∧ p.ModulePath.data.isPrefixOf k.data = true) ∧ p ∉ m k) ↔
          ((k ∈ is ∧ p.ModulePath.data.isPrefixOf k.data = true) ∧ p ∉ m k) := by
        constructor
        · rintro ⟨⟨hmem, hp⟩, hnp⟩
          rcases List.mem_cons.mp hmem with h | h
          · exact absurd h hk
          · exact ⟨⟨h, hp⟩, hnp⟩
        · rintro ⟨⟨hmem, hp⟩, hnp⟩
          exact ⟨⟨List.mem_cons_of_mem i hmem, hp⟩, hnp⟩
      rw [if_congr this rfl rfl]

theorem stepPkg_nodup {m : String → List Package} {p : Package} {k : String}
    (hdep : p.Deps.Nodup) (hm : (m k).Nodup) (hp : p ∉ m k) : (stepPkg m p k).Nodup := by
  unfold stepPkg
  rw [addTestImps_eq, addProdDeps_eq hdep]
  by_cases h1 : k ∈ p.Deps ∧ p.ModulePath.data.isPrefixOf k.data = true
  · rw [if_pos h1]
    have hpin : p ∈ m k ++ [p] := List.mem_append_right _ (List.mem_singleton_self p)
    have h2 : ¬ ((k ∈ p.TestImports ++ p.XTestImports ∧
        p.ModulePath.data.isPrefixOf k.data = true) ∧ p ∉ m k ++ [p]) := fun h => h.2 hpin
    rw [if_neg h2, List.append_nil, List.nodup_append]
    refine ⟨hm, List.nodup_singleton p, ?_⟩
    intro a ha hap
    rw [List.mem_singleton] at hap
    exact hp (hap ▸ ha)
  · rw [if_neg h1, List.append_nil]
    by_cases h2 : (k ∈ p.TestImports ++ p.XTestImports ∧
        p.ModulePath.data.isPrefixOf k.data = true) ∧ p ∉ m k
    · rw [if_pos h2, List.nodup_append]
      refine ⟨hm, List.nodup_singleton p, ?_⟩
      intro a ha hap
      rw [List.mem_singleton] at hap
      exact hp (hap ▸ ha)
    · rw [if_neg h2, List.append_nil]
      exact hm

theorem foldl_stepPkg_nodup {l : List Package} {m : String → List Package}
    (hl : l.Nodup) (hdeps : ∀ p ∈ l, p.Deps.Nodup) (hm : ∀ k, (m k).Nodup)
    (hinv : ∀ k q, q ∈ m k → q ∉ l) : ∀ k, ((l.foldl stepPkg m) k).Nodup := by
  induction l generalizing m with
  | nil => exact hm
  | cons p ps ih =>
    rw [List.nodup_cons] at hl
    intro k
    show ((ps.foldl stepPkg (stepPkg m p)) k).Nodup
    refine ih hl.2 (fun q hq => hdeps q (List.mem_cons_of_mem p hq)) ?_ ?_ k
    · intro k'
      refine stepPkg_nodup (hdeps p (List.mem_cons_self p ps)) (hm k') ?_
      intro hpm
      exact hinv k' p hpm (List.mem_cons_self p ps)
    · intro k' q hq
      rcases mem_stepPkg.mp hq with hq | ⟨rfl, -, -⟩
      · intro hqps
        exact hinv k' q hq (List.mem_cons_of_mem p hqps)
      · exact hl.1

/-- The reverse dependency index never records the same dependent twice
under one import path, provided the snapshot packages are pairwise distinct
and each dependency list is duplicate-free (both hold for `go list` output,
whose packages are keyed by distinct directories and whose `Deps` lists are
sorted and deduplicated). -/
theorem buildRevdeps_nodup {pkgs : List Package} (hl : pkgs.Nodup)
    (hdeps : ∀ p ∈ pkgs, p.Deps.Nodup) : ∀ k, (buildRevdeps pkgs k).Nodup := by
  unfold buildRevdeps
  exact foldl_stepPkg_nodup hl hdeps (fun _ => List.nodup_nil) (fun _ q hq => absurd hq (List.not_mem_nil q))

/-! ### Characterization of the resolver -/

theorem testsToRun_eq_cases (pkg : Package) (rv : List Package) (g : List String) :
    testsToRun pkg rv g =
      if rv = [] then []
      else if ∀ f ∈ g, f ∈ pkg.IgnoredGoFiles then []
      else if ∀ f ∈ g, f ∉ pkg.IgnoredGoFiles → (f ∈ pkg.TestGoFiles ∨ f ∈ pkg.XTestGoFiles)
        then [pkg]
      else rv ++ [pkg] := by
  unfold testsToRun
  by_cases h1 : rv = []
  · rw [if_pos (show rv.isEmpty = true by simp [h1]), if_pos h1]
  · rw [if_neg (show ¬ rv.isEmpty = true by simp [h1]), if_neg h1]
    by_cases h2 : ∀ f ∈ g, f ∈ pkg.IgnoredGoFiles
    · have hfe : (g.filter (fun f => decide (f ∉ pkg.IgnoredGoFiles))).isEmpty = true := by
        rw [List.isEmpty_iff, List.filter_eq_nil_iff]
        intro a ha
        simpa using h2 a ha
      rw [if_pos hfe, if_pos h2]
    · have hfne : ¬ (g.filter (fun f => decide (f ∉ pkg.IgnoredGoFiles))).isEmpty = true := by
        rw [List.isEmpty_iff, List.filter_eq_nil_iff]
        intro hall
        apply h2
        intro f hf
        by_contra hnf
        exact hall f hf (by simpa using hnf)
      rw [if_neg hfne, if_neg h2]
      by_cases h3 : ∀ f ∈ g, f ∉ pkg.IgnoredGoFiles → (f ∈ pkg.TestGoFiles ∨ f ∈ pkg.XTestGoFiles)
      · have hall : (g.filter (fun f => decide (f ∉ pkg.IgnoredGoFiles))).all
            (fun f => decide (f ∈ pkg.TestGoFiles ∨ f ∈ pkg.XTestGoFiles)) = true := by
          rw [List.all_eq_true]
          intro f hf
          rw [List.mem_filter] at hf
          simpa using h3 f hf.1 (by simpa using hf.2)
        rw [if_pos hall, if_pos h3]
      · have hnall : ¬ (g.filter (fun f => decide (f ∉ pkg.IgnoredGoFiles))).all
            (fun f => decide (f ∈ pkg.TestGoFiles ∨ f ∈ pkg.XTestGoFiles)) = true := by
          rw [List.all_eq_true]
          intro hall
          apply h3
          intro f hf hnig
          have hmem : f ∈ g.filter (fun f => decide (f ∉ pkg.IgnoredGoFiles)) :=
            List.mem_filter.mpr ⟨hf, by simpa using hnig⟩
          simpa using hall f hmem
        rw [if_neg hnall, if_neg h3]

theorem testsToRun_ext {pkg : Package} {rv : List Package} {g₁ g₂ : List String}
    (h : ∀ x, x ∈ g₁ ↔ x ∈ g₂) : testsToRun pkg rv g₁ = testsToRun pkg rv g₂ := by
  rw [testsToRun_eq_cases, testsToRun_eq_cases]
  have e2 : (∀ f ∈ g₁, f ∈ pkg.IgnoredGoFiles) ↔ (∀ f ∈ g₂, f ∈ pkg.IgnoredGoFiles) := by
    constructor <;> intro ha f hf
    · exact ha f ((h f).mpr hf)
    · exact ha f ((h f).mp hf)
  have e3 : (∀ f ∈ g₁, f ∉ pkg.IgnoredGoFiles → (f ∈ pkg.TestGoFiles ∨ f ∈ pkg.XTestGoFiles)) ↔
      (∀ f ∈ g₂, f ∉ pkg.IgnoredGoFiles → (f ∈ pkg.TestGoFiles ∨ f ∈ pkg.XTestGoFiles)) := by
    constructor <;> intro ha f hf
    · exact ha f ((h f).mpr hf)
    · exact ha f ((h f).mp hf)
  rw [if_congr Iff.rfl rfl (if_congr e2 rfl (if_congr e3 rfl rfl))]

theorem mem_groupOf {fns : List String} {d x : String} :
    x ∈ groupOf fns d ↔ ∃ f ∈ fns, dirOf f = d ∧ fileNameOf f = x := by
  unfold groupOf
  simp only [List.mem_map, List.mem_filter, decide_eq_true_eq]
  constructor
  · rintro ⟨f, ⟨hf, hd⟩, rfl⟩
    exact ⟨f, hf, hd, rfl⟩
  · rintro ⟨f, hf, hd, rfl⟩
    exact ⟨f, ⟨hf, hd⟩, rfl⟩

theorem foldl_append_contrib (pkgs : List Package) (rd : String → List Package)
    (l : List (String × List String)) (init : List Package) :
    l.foldl (fun acc df => acc ++ contrib pkgs rd df) init =
      init ++ (l.map (contrib pkgs rd)).flatten := by
  induction l generalizing init with
  | nil => simp
  | cons e es ih =>
    show es.foldl _ (init ++ contrib pkgs rd e) = _
    rw [ih]
    simp [List.append_assoc]

theorem mem_toRun_iff {pkgs : List Package} {rd : String → List Package} {fns : List String}
    {q : Package} :
    q ∈ (groupByDir fns).foldl (fun acc df => acc ++ contrib pkgs rd df) [] ↔
      ∃ d, (∃ f ∈ fns, dirOf f = d) ∧ q ∈ contrib pkgs rd (d, groupOf fns d) := by
  rw [foldl_append_contrib]
  simp only [List.nil_append, List.mem_flatten, List.mem_map]
  constructor
  · rintro ⟨s, ⟨df, hdf, rfl⟩, hq⟩
    rcases List.mem_map.mp hdf with ⟨d, hd, rfl⟩
    rcases List.mem_map.mp (List.mem_dedup.mp hd) with ⟨f, hf, rfl⟩
    exact ⟨dirOf f, ⟨f, hf, rfl⟩, hq⟩
  · rintro ⟨d, ⟨f, hf, rfl⟩, hq⟩
    refine ⟨contrib pkgs rd (dirOf f, groupOf fns (dirOf f)), ⟨(dirOf f, groupOf fns (dirOf f)), ?_, rfl⟩, hq⟩
    exact List.mem_map.mpr ⟨dirOf f, List.mem_dedup.mpr (List.mem_map.mpr ⟨f, hf, rfl⟩), rfl⟩

theorem mem_runAllTestsPaths {pkgs : List Package} {rd : String → List Package}
    {fns : List String} {p : String} :
    p ∈ runAllTestsPaths pkgs rd fns ↔
      ∃ d, (∃ f ∈ fns, dirOf f = d) ∧ ∃ q ∈ contrib pkgs rd (d, groupOf fns d),
        ¬ (q.TestGoFiles = [] ∧ q.XTestGoFiles = []) ∧ q.ImportPath = p := by
  unfold runAllTestsPaths
  rw [mem_compactAdj, mem_sortStrings]
  simp only [List.mem_map, List.mem_filter, decide_eq_true_eq]
  constructor
  · rintro ⟨q, ⟨hq, htests⟩, rfl⟩
    rcases mem_toRun_iff.mp hq with ⟨d, hd, hcontrib⟩
    exact ⟨d, hd, q, hcontrib, htests, rfl⟩
  · rintro ⟨d, hd, q, hcontrib, htests, rfl⟩
    exact ⟨q, ⟨mem_toRun_iff.mpr ⟨d, hd, hcontrib⟩, htests⟩, rfl⟩

theorem contrib_ext {pkgs : List Package} {rd : String → List Package} {d : String}
    {fns₁ fns₂ : List String} (h : ∀ x, x ∈ fns₁ ↔ x ∈ fns₂) :
    contrib pkgs rd (d, groupOf fns₁ d) = contrib pkgs rd (d, groupOf fns₂ d) := by
  unfold contrib
  cases lookupDir pkgs d with
  | none => rfl
  | some pkg =>
    exact testsToRun_ext (fun x => by
      rw [mem_groupOf, mem_groupOf]
      constructor
      · rintro ⟨f, hf, hd, hx⟩
        exact ⟨f, (h f).mp hf, hd, hx⟩
      · rintro ⟨f, hf, hd, hx⟩
        exact ⟨f, (h f).mpr hf, hd, hx⟩)

theorem runAllTestsPaths_ext {pkgs : List Package} {rd : String → List Package}
    {fns₁ fns₂ : List String} (h : ∀ x, x ∈ fns₁ ↔ x ∈ fns₂) :
    runAllTestsPaths pkgs rd fns₁ = runAllTestsPaths pkgs rd fns₂ := by
  unfold runAllTestsPaths
  apply canonicalize_eq
  intro x
  simp only [List.mem_map, List.mem_filter, decide_eq_true_eq]
  constructor
  · rintro ⟨q, ⟨hq, htests⟩, rfl⟩
    rcases mem_toRun_iff.mp hq with ⟨d, ⟨f, hf, rfl⟩, hcontrib⟩
    rw [contrib_ext h] at hcontrib
    exact ⟨q, ⟨mem_toRun_iff.mpr ⟨dirOf f, ⟨f, (h f).mp hf, rfl⟩, hcontrib⟩, htests⟩, rfl⟩
  · rintro ⟨q, ⟨hq, htests⟩, rfl⟩
    rcases mem_toRun_iff.mp hq with ⟨d, ⟨f, hf, rfl⟩, hcontrib⟩
    rw [← contrib_ext h] at hcontrib
    exact ⟨q, ⟨mem_toRun_iff.mpr ⟨dirOf f, ⟨f, (h f).mpr hf, rfl⟩, hcontrib⟩, htests⟩, rfl⟩

theorem mem_contrib {pkgs : List Package} {rd : String → List Package}
    {df : String × List String} {q : Package} (h : q ∈ contrib pkgs rd df) :
    ∃ pkg, lookupDir pkgs df.1 = some pkg ∧ q ∈ testsToRun pkg (rd pkg.ImportPath) df.2 := by
  unfold contrib at h
  cases hlk : lookupDir pkgs df.1 with
  | none =>
    rw [hlk] at h
    exact absurd h (List.not_mem_nil q)
  | some pkg =>
    rw [hlk] at h
    exact ⟨pkg, rfl, h⟩

theorem mem_testsToRun_cases {pkg : Package} {rv : List Package} {g : List String}
    {q : Package} (h : q ∈ testsToRun pkg rv g) : q = pkg ∨ q ∈ rv := by
  rw [testsToRun_eq_cases] at h
  split_ifs at h
  · exact absurd h (List.not_mem_nil q)
  · exact absurd h (List.not_mem_nil q)
  · exact Or.inl (List.mem_singleton.mp h)
  · rcases List.mem_append.mp h with h | h
    · exact Or.inr h
    · exact Or.inl (List.mem_singleton.mp h)

/-! ### Claims -/

/-- C1: the spec requires that for a package with at least one changed
production file and zero reverse dependents, resolution returns exactly
that package when it has tests.  The code disagrees: `testsToRun` returns
early with the empty set whenever the reverse-dependent list is empty
(src/main.go line 372), before the self-inclusion append is reached, so
the changed package's own tests are never run.  Evaluated at the failing
input: `leafPkg` has a changed production file `a.go`, a test file, and no
reverse dependents, yet the resolver yields the empty set instead of the
required singleton. -/
theorem c1_zero_dependents_eval :
    buildRevdeps [leafPkg] leafPkg.ImportPath = [] ∧
    "a.go" ∈ leafPkg.GoFiles ∧ "a.go" ∉ leafPkg.TestGoFiles ∧
    "a.go" ∉ leafPkg.XTestGoFiles ∧ "a.go" ∉ leafPkg.IgnoredGoFiles ∧
    leafPkg.TestGoFiles ≠ [] ∧
    runAllTestsPaths [leafPkg] (buildRevdeps [leafPkg]) ["/m/a/a.go"] = [] := by
  decide

/-- C2 counterexample: the invariant that no package appears in the
dependent list stored under its own import path fails on a snapshot whose
package has an external test importing the package itself (the normal
`go list` shape for external tests): the second `buildRevdeps` pass
records the package under its own import path. -/
theorem c2_counterexample :
    selfPkg ∈ buildRevdeps [selfPkg] selfPkg.ImportPath := by
  decide

/-- C2 (amended): for every snapshot, a package whose own import path
occurs in none of its production dependencies, test imports or
external-test imports is never recorded under its own import path. -/
theorem c2_no_self_revdep (pkgs : List Package) (Q : Package)
    (h1 : Q.ImportPath ∉ Q.Deps) (h2 : Q.ImportPath ∉ Q.TestImports)
    (h3 : Q.ImportPath ∉ Q.XTestImports) :
    Q ∉ buildRevdeps pkgs Q.ImportPath := by
  intro hmem
  rcases mem_buildRevdeps.mp hmem with ⟨-, -, hdep⟩
  rcases hdep with h | h
  · exact h1 h
  · rcases List.mem_append.mp h with h | h
    · exact h2 h
    · exact h3 h

/-- Witness for C2 (amended) at the example snapshot. -/
theorem c2_no_self_revdep_witness :
    (corePkg.ImportPath ∉ corePkg.Deps ∧ corePkg.ImportPath ∉ corePkg.TestImports ∧
      corePkg.ImportPath ∉ corePkg.XTestImports) ∧
    corePkg ∉ buildRevdeps snapEx corePkg.ImportPath :=
  ⟨by decide, c2_no_self_revdep snapEx corePkg (by decide) (by decide) (by decide)⟩

/-- C3 counterexample: with quiet window 10, a burst of three events at
times 0 (the batch trigger consumed by the dispatch loop), 6 and 12 has
every inter-arrival gap strictly below the window and is followed by
silence, yet the collected batch is `[0, 1]` and misses the third event:
`debounceFor` arms its deadline once at entry and never resets it on new
events, so the claimed full batch `[0, 1, 2]` is not returned. -/
theorem c3_counterexample :
    (6 - 0 < 10 ∧ 12 - 6 < 10) ∧
    (0 :: debounceFor [(6, 1), (12, 2)] 10) = [0, 1] ∧
    (0 :: debounceFor [(6, 1), (12, 2)] 10) ≠ [0, 1, 2] := by
  decide

/-- C3 (amended): `debounceFor` is a fixed-window collector: for
time-ordered arrivals, the batch is exactly the events arriving strictly
before one quiet window measured from the start of collection (the window
does not reset on new events), and in particular a burst wholly inside
that single window is returned in full in one batch. -/
theorem c3_fixed_window (arr : List (Nat × Nat)) (d : Nat)
    (hmono : arr.Pairwise (fun a b => a.1 ≤ b.1)) :
    debounceFor arr d = (arr.filter (fun e => decide (e.1 < d))).map Prod.snd ∧
      ((∀ e ∈ arr, e.1 < d) → debounceFor arr d = arr.map Prod.snd) := by
  constructor
  · induction arr with
    | nil => rfl
    | cons e es ih =>
      rw [List.pairwise_cons] at hmono
      obtain ⟨he, hes⟩ := hmono
      obtain ⟨t, a⟩ := e
      by_cases h : t < d
      · rw [debounceFor, if_pos h, List.filter_cons_of_pos (by simpa using h), List.map_cons,
          ih hes]
      · rw [debounceFor, if_neg h, List.filter_cons_of_neg (by simpa using h)]
        have : es.filter (fun e => decide (e.1 < d)) = [] := by
          rw [List.filter_eq_nil_iff]
          intro e' he'
          have := he e' he'
          simp only [decide_eq_true_eq]
          omega
        rw [this, List.map_nil]
  · intro hall
    induction arr with
    | nil => rfl
    | cons e es ih =>
      rw [List.pairwise_cons] at hmono
      obtain ⟨t, a⟩ := e
      rw [debounceFor, if_pos (hall (t, a) (List.mem_cons_self _ _)), List.map_cons,
        ih hmono.2 (fun e' he' => hall e' (List.mem_cons_of_mem _ he'))]

/-- Witness for C3 (amended) at a concrete in-window burst. -/
theorem c3_fixed_window_witness :
    ([((2 : Nat), (5 : Nat)), (7, 9)].Pairwise (fun a b => a.1 ≤ b.1)) ∧
    (debounceFor [((2 : Nat), (5 : Nat)), (7, 9)] 10 =
        ([((2 : Nat), (5 : Nat)), (7, 9)].filter (fun e => decide (e.1 < 10))).map Prod.snd ∧
      ((∀ e ∈ [((2 : Nat), (5 : Nat)), (7, 9)], e.1 < 10) →
        debounceFor [((2 : Nat), (5 : Nat)), (7, 9)] 10 =
          [((2 : Nat), (5 : Nat)), (7, 9)].map Prod.snd)) :=
  ⟨by decide, c3_fixed_window [(2, 5), (7, 9)] 10 (by decide)⟩

/-- C4: the spec requires that a change touching only test files of a
package resolves to exactly that package regardless of how many packages
depend on it — including none.  The code disagrees in the zero-dependent
case: the early return of `testsToRun` on an empty reverse-dependent list
precedes the test-file branch, so a pure test-file edit in a package
nobody depends on runs nothing.  Evaluated at the failing input:
`leafPkg`'s own test file changes, the package has tests and zero reverse
dependents, and the resolver yields the empty set instead of the required
singleton. -/
theorem c4_test_file_zero_dependents_eval :
    buildRevdeps [leafPkg] leafPkg.ImportPath = [] ∧
    "a_test.go" ∈ leafPkg.TestGoFiles ∧
    testsToRun leafPkg (buildRevdeps [leafPkg] leafPkg.ImportPath) ["a_test.go"] = [] ∧
    runAllTestsPaths [leafPkg] (buildRevdeps [leafPkg]) ["/m/a/a_test.go"] = [] := by
  decide

/-- C5: the final resolution result never contains a package with no test
files and no external-test files: for the full pipeline — snapshot,
reverse index built from it, and resolution of a batch — every import
path handed to the executor is the import path of a snapshot package that
has at least one test or external-test file.  Untested packages can enter
`toRun` as reverse dependents, but the filter at src/main.go lines 410-412
removes them before the projection to import paths, and every surviving
entry is either the looked-up snapshot package of a changed directory or
a member of the snapshot-built reverse index. -/
theorem c5_no_untested_in_result (pkgs : List Package) (fns : List String) (p : String)
    (hp : p ∈ runAllTestsPaths pkgs (buildRevdeps pkgs) fns) :
    ∃ q ∈ pkgs, q.ImportPath = p ∧ (q.TestGoFiles ≠ [] ∨ q.XTestGoFiles ≠ []) := by
  rcases mem_runAllTestsPaths.mp hp with ⟨d, -, q, hq, htests, rfl⟩
  rcases mem_contrib hq with ⟨pkg, hlk, hmem⟩
  have hqpkgs : q ∈ pkgs := by
    rcases mem_testsToRun_cases hmem with rfl | hrv
    · exact List.mem_of_find?_eq_some hlk
    · exact (mem_buildRevdeps.mp hrv).1
  refine ⟨q, hqpkgs, rfl, ?_⟩
  by_cases h1 : q.TestGoFiles = []
  · by_cases h2 : q.XTestGoFiles = []
    · exact absurd ⟨h1, h2⟩ htests
    · exact Or.inr h2
  · exact Or.inl h1

/-- Witness for C5: in the example snapshot, `m/cmd` depends on `m/core`
but has no tests; after a production change in `m/core` the result
contains `m/api`, and the theorem exhibits its tested snapshot owner. -/
theorem c5_witness :
    "m/api" ∈ runAllTestsPaths snapEx (buildRevdeps snapEx) ["/m/core/core.go"] ∧
    ∃ q ∈ snapEx, q.ImportPath = "m/api" ∧ (q.TestGoFiles ≠ [] ∨ q.XTestGoFiles ≠ []) :=
  ⟨by decide,
    c5_no_untested_in_result snapEx ["/m/core/core.go"] "m/api" (by decide)⟩

/-- C6: a group of changed files that all lie in the package's
`IgnoredGoFiles` contributes nothing to resolution, whatever the reverse
dependents of the package are: the ignored files are excised first and the
emptied group returns the empty contribution. -/
theorem c6_ignored_only_contributes_nothing (pkg : Package) (rv : List Package)
    (g : List String) (h : ∀ f ∈ g, f ∈ pkg.IgnoredGoFiles) :
    testsToRun pkg rv g = [] := by
  rw [testsToRun_eq_cases]
  by_cases h1 : rv = []
  · rw [if_pos h1]
  · rw [if_neg h1, if_pos h]

/-- Witness for C6: a change to core's build-excluded file contributes
nothing although core has a dependent. -/
theorem c6_witness :
    (∀ f ∈ ["ign.go"], f ∈ corePkg.IgnoredGoFiles) ∧
    testsToRun corePkg [apiPkg] ["ign.go"] = [] :=
  ⟨by decide, c6_ignored_only_contributes_nothing corePkg [apiPkg] ["ign.go"] (by decide)⟩

/-- C7: for two changed paths owned by distinct directories, resolving the
two-element batch yields the same set of import paths as the union of
resolving each path alone: grouping by directory splits the batch into the
same two singleton groups the separate runs see, and the canonicalized
result is membership-determined. -/
theorem c7_batch_union (pkgs : List Package) (rd : String → List Package)
    (f₁ f₂ : String) (hd : dirOf f₁ ≠ dirOf f₂) (p : String) :
    p ∈ runAllTestsPaths pkgs rd [f₁, f₂] ↔
      p ∈ runAllTestsPaths pkgs rd [f₁] ∨ p ∈ runAllTestsPaths pkgs rd [f₂] := by
  have h21 : ¬ (dirOf f₂ = dirOf f₁) := fun h => hd h.symm
  have e₁ : groupOf [f₁, f₂] (dirOf f₁) = groupOf [f₁] (dirOf f₁) := by
    simp [groupOf, h21]
  have e₂ : groupOf [f₁, f₂] (dirOf f₂) = groupOf [f₂] (dirOf f₂) := by
    simp [groupOf, hd]
  rw [mem_runAllTestsPaths, mem_runAllTestsPaths, mem_runAllTestsPaths]
  constructor
  · rintro ⟨d, ⟨f, hf, rfl⟩, q, hq, ht, rfl⟩
    rcases List.mem_cons.mp hf with rfl | hf'
    · rw [e₁] at hq
      exact Or.inl ⟨dirOf f, ⟨f, List.mem_singleton_self f, rfl⟩, q, hq, ht, rfl⟩
    · have : f = f₂ := by simpa using hf'
      subst this
      rw [e₂] at hq
      exact Or.inr ⟨dirOf f, ⟨f, List.mem_singleton_self f, rfl⟩, q, hq, ht, rfl⟩
  · rintro (⟨d, ⟨f, hf, rfl⟩, q, hq, ht, rfl⟩ | ⟨d, ⟨f, hf, rfl⟩, q, hq, ht, rfl⟩)
    · have : f = f₁ := by simpa using hf
      subst this
      rw [← e₁] at hq
      exact ⟨dirOf f, ⟨f, List.mem_cons_self f [f₂], rfl⟩, q, hq, ht, rfl⟩
    · have : f = f₂ := by simpa using hf
      subst this
      rw [← e₂] at hq
      exact ⟨dirOf f, ⟨f, List.mem_cons_of_mem f₁ (List.mem_singleton_self f), rfl⟩, q, hq, ht, rfl⟩

/-- Witness for C7 at two files in distinct snapshot directories. -/
theorem c7_witness :
    dirOf "/m/core/core.go" ≠ dirOf "/m/api/api.go" ∧
    ("m/api" ∈ runAllTestsPaths snapEx (buildRevdeps snapEx) ["/m/core/core.go", "/m/api/api.go"] ↔
      "m/api" ∈ runAllTestsPaths snapEx (buildRevdeps snapEx) ["/m/core/core.go"] ∨
      "m/api" ∈ runAllTestsPaths snapEx (buildRevdeps snapEx) ["/m/api/api.go"]) :=
  ⟨by decide,
    c7_batch_union snapEx (buildRevdeps snapEx) "/m/core/core.go" "/m/api/api.go" (by decide) "m/api"⟩

/-- C8: a batch whose changed paths all lie in directories unknown to the
snapshot resolves to the empty list and produces the normal
"no affected tests" outcome — the branch that returns without error and
without invoking the executor — rather than any failure. -/
theorem c8_unknown_dirs_noTests (pkgs : List Package) (rd : String → List Package)
    (fns : List String) (h : ∀ f ∈ fns, ∀ q ∈ pkgs, q.Dir ≠ dirOf f) :
    runAllTestsPaths pkgs rd fns = [] ∧
      runAllTestsOutcome pkgs rd fns = Outcome.noTests := by
  have hpaths : runAllTestsPaths pkgs rd fns = [] := by
    rw [List.eq_nil_iff_forall_not_mem]
    intro p hp
    rcases mem_runAllTestsPaths.mp hp with ⟨d, ⟨f, hf, rfl⟩, q, hq, -, -⟩
    have hnone : lookupDir pkgs (dirOf f) = none := by
      rw [lookupDir, List.find?_eq_none]
      intro x hx
      simpa using h f hf x hx
    have hc : contrib pkgs rd (dirOf f, groupOf fns (dirOf f)) = [] := by
      simp [contrib, hnone]
    rw [hc] at hq
    exact absurd hq (List.not_mem_nil q)
  refine ⟨hpaths, ?_⟩
  unfold runAllTestsOutcome
  rw [if_pos (by rw [hpaths]; rfl)]

/-- Witness for C8 at a path outside every snapshot directory. -/
theorem c8_witness :
    (∀ f ∈ ["/nowhere/x.go"], ∀ q ∈ snapEx, q.Dir ≠ dirOf f) ∧
    (runAllTestsPaths snapEx (buildRevdeps snapEx) ["/nowhere/x.go"] = [] ∧
      runAllTestsOutcome snapEx (buildRevdeps snapEx) ["/nowhere/x.go"] = Outcome.noTests) :=
  ⟨by decide, c8_unknown_dirs_noTests snapEx (buildRevdeps snapEx) ["/nowhere/x.go"] (by decide)⟩

/-- C9: for a snapshot whose package records are pairwise distinct and
whose dependency lists are duplicate-free (the shape of `go list` output,
which the spec's data model states as sets), the reverse index records `Q`
under `D` exactly when `D` lies in `Q`'s production dependencies or its
test/external-test imports and carries `Q`'s module path as a prefix, and
the list under every import path contains each dependent at most once
despite the two construction passes. -/
theorem c9_revdeps_spec (pkgs : List Package) (hnd : pkgs.Nodup)
    (hdeps : ∀ p ∈ pkgs, p.Deps.Nodup) :
    (∀ D Q, Q ∈ buildRevdeps pkgs D ↔
      Q ∈ pkgs ∧ Q.ModulePath.data.isPrefixOf D.data = true ∧
        (D ∈ Q.Deps ∨ D ∈ Q.TestImports ++ Q.XTestImports)) ∧
    (∀ D, (buildRevdeps pkgs D).Nodup) :=
  ⟨fun _ _ => mem_buildRevdeps, buildRevdeps_nodup hnd hdeps⟩

/-- Witness for C9 at the example snapshot and the import path of core. -/
theorem c9_witness :
    snapEx.Nodup ∧ (∀ p ∈ snapEx, p.Deps.Nodup) ∧
    (apiPkg ∈ buildRevdeps snapEx "m/core" ↔
      apiPkg ∈ snapEx ∧ apiPkg.ModulePath.data.isPrefixOf "m/core".data = true ∧
        ("m/core" ∈ apiPkg.Deps ∨ "m/core" ∈ apiPkg.TestImports ++ apiPkg.XTestImports)) ∧
    (buildRevdeps snapEx "m/core").Nodup :=
  ⟨by decide, by decide,
    (c9_revdeps_spec snapEx (by decide) (by decide)).1 "m/core" apiPkg,
    (c9_revdeps_spec snapEx (by decide) (by decide)).2 "m/core"⟩

/-- C10: the import-path list handed to the test executor is sorted (in
the lexicographic string order of `slices.Sort`) and duplicate-free, and
is determined by the set of changed paths alone: any two batches with the
same membership — whatever the event order or multiplicity, and
independently of the embedding-fixed iteration order of the grouping map —
produce identical executor argument lists. -/
theorem c10_canonical_deterministic (pkgs : List Package) (rd : String → List Package)
    (fns : List String) :
    (runAllTestsPaths pkgs rd fns).Sorted goLe ∧ (runAllTestsPaths pkgs rd fns).Nodup ∧
    ∀ fns₂, (∀ f, f ∈ fns ↔ f ∈ fns₂) →
      runAllTestsPaths pkgs rd fns = runAllTestsPaths pkgs rd fns₂ := by
  refine ⟨?_, ?_, fun fns₂ h => runAllTestsPaths_ext h⟩
  · exact (compactAdj_canonical (r := goLe) (fun {a b} => goLe_antisymm)
      (sorted_sortStrings _)).1
  · exact (compactAdj_canonical (r := goLe) (fun {a b} => goLe_antisymm)
      (sorted_sortStrings _)).2

/-- Witness for C10: the same batch in two different event orders and with
a duplicated event yields the identical executor argument list, which is
sorted and duplicate-free. -/
theorem c10_witness :
    (runAllTestsPaths snapEx (buildRevdeps snapEx) ["/m/core/core.go", "/m/api/api.go"]).Sorted goLe ∧
    (runAllTestsPaths snapEx (buildRevdeps snapEx) ["/m/core/core.go", "/m/api/api.go"]).Nodup ∧
    runAllTestsPaths snapEx (buildRevdeps snapEx) ["/m/core/core.go", "/m/api/api.go"] =
      runAllTestsPaths snapEx (buildRevdeps snapEx)
        ["/m/api/api.go", "/m/core/core.go", "/m/core/core.go"] :=
  ⟨(c10_canonical_deterministic snapEx (buildRevdeps snapEx) ["/m/core/core.go", "/m/api/api.go"]).1,
    (c10_canonical_deterministic snapEx (buildRevdeps snapEx) ["/m/core/core.go", "/m/api/api.go"]).2.1,
    (c10_canonical_deterministic snapEx (buildRevdeps snapEx) ["/m/core/core.go", "/m/api/api.go"]).2.2
      ["/m/api/api.go", "/m/core/core.go", "/m/core/core.go"]
      (by intro f; simp only [List.mem_cons, List.not_mem_nil, or_false]; tauto)⟩
